import Mathlib

/-!
Shallow embedding of the Performance Aggregation Engine of the
app-in-performance-api repository (src/internal/appin/coversion.go).

Modelling conventions:
* Go strings are Lean strings; strings.ToLower / strings.Contains are
  re-implemented below over the character list of the string.
* time.Time and time.Duration are nanosecond counts, modelled as Int
  (Go stores both as int64 nanoseconds); a nil *time.Time is Option Int.
* The implicit clock (time.Since, time.Now) is made explicit: every
  function of the source that reads the clock takes a `now : Int`
  parameter.
* float32 arithmetic on the rate fields is modelled by exact rational
  arithmetic over ℚ.
* Go maps (map[string][]*AppIn, map[string]*performerMetric) are
  modelled as association lists in first-insertion key order; functions
  that iterate a map take the association list, so properties that must
  hold for every iteration order are quantified over the list.
* Input-record fields that the aggregation engine never reads
  (number, prename, display names, finance amount, term, createdBy) are
  omitted from the record structures.
-/

namespace AppInPerf

/-- Go strings.ToLower, modelled character-wise. -/
def goToLower (s : String) : String := ⟨s.data.map Char.toLower⟩

/-- Substring occurrence on character lists: true iff needle occurs in hay. -/
def containsSub (needle : List Char) : List Char → Bool
  | [] => decide (needle = [])
  | c :: t => needle.isPrefixOf (c :: t) || containsSub needle t

/-- Go strings.Contains(s, substr). -/
def goContains (s substr : String) : Bool := containsSub substr.data s.data

/-- time.Minute in nanoseconds. -/
def nsMinute : Int := 60 * 1000000000

/-- time.Hour in nanoseconds. -/
def nsHour : Int := 60 * nsMinute

/-- AppIn case record (engine-relevant fields). -/
structure AppIn where
  product : String
  type : String
  status : String
  executor : String
  completedAt : Option Int
  createdAt : Int
deriving DecidableEq

/-- CAFinal review record (engine-relevant fields). -/
structure CAFinal where
  status : String
  executor : String
  completedAt : Option Int
  createdAt : Int
deriving DecidableEq

/-- Conversion summary, from the Conversion struct of the source. -/
structure Conversion where
  total : Int
  converted : Int
  notPassed : Int
  rate : ℚ
  fastest : Int
  fastestPercent : ℚ
  needAttention : Int
  bestTime : Int
  averageTime : Int
deriving DecidableEq

/-- Converted predicate for AppIn, the first condition of the loop body of
newConversion: lowered status non-empty, not containing "not pass",
completion timestamp present. -/
def isConvertedApp (a : AppIn) : Prop :=
  goToLower a.status ≠ "" ∧ goContains (goToLower a.status) "not pass" = false ∧
    a.completedAt ≠ none

instance : DecidablePred isConvertedApp := fun a => by
  unfold isConvertedApp; infer_instance

/-- Not-passed predicate for AppIn, the third condition of the loop body of
newConversion: lowered status contains "not pass". -/
def isNotPassedApp (a : AppIn) : Prop :=
  goContains (goToLower a.status) "not pass" = true

instance : DecidablePred isNotPassedApp := fun a => by
  unfold isNotPassedApp; infer_instance

/-- Pending predicate for AppIn, the second condition of the loop body of
newConversion: lowered status empty and no completion timestamp. -/
def isPendingApp (a : AppIn) : Prop :=
  goToLower a.status = "" ∧ a.completedAt = none

instance : DecidablePred isPendingApp := fun a => by
  unfold isPendingApp; infer_instance

/-- Elapsed duration CompletedAt.Sub(CreatedAt); only meaningful when a
completion timestamp is present. -/
def elapsedOf (a : AppIn) : Int :=
  match a.completedAt with
  | some fin => fin - a.createdAt
  | none => 0

/-- Accumulator of the single pass of newConversion / newCAFinalConversion. -/
structure ConvAcc where
  sum : Int
  bestTime : Int
  fastest : Int
  needAttention : Int
  converted : Int
  notPassed : Int
deriving DecidableEq

def convAcc0 : ConvAcc := ⟨0, 0, 0, 0, 0, 0⟩

/-- Best-time update of the loop body:
if (bestTime == 0 || duration < bestTime) && duration >= time.Minute. -/
def bestUpd (b d : Int) : Int :=
  if (b = 0 ∨ d < b) ∧ nsMinute ≤ d then d else b

/-- Converted branch of the newConversion loop body. -/
def convStep (a : AppIn) (acc : ConvAcc) : ConvAcc :=
  if isConvertedApp a then
    let duration := elapsedOf a
    { acc with
      converted := acc.converted + 1
      sum := acc.sum + duration
      fastest := acc.fastest + (if duration ≤ 30 * nsMinute then 1 else 0)
      bestTime := bestUpd acc.bestTime duration }
  else acc

/-- Need-attention branch of the newConversion loop body
(time.Since(CreatedAt) > 5h on a pending record). -/
def attnStep (now : Int) (a : AppIn) (acc : ConvAcc) : ConvAcc :=
  if isPendingApp a ∧ 5 * nsHour < now - a.createdAt then
    { acc with needAttention := acc.needAttention + 1 }
  else acc

/-- Not-passed branch of the newConversion loop body. -/
def npStep (a : AppIn) (acc : ConvAcc) : ConvAcc :=
  if isNotPassedApp a then { acc with notPassed := acc.notPassed + 1 } else acc

/-- One iteration of the newConversion loop. -/
def appInStep (now : Int) (acc : ConvAcc) (a : AppIn) : ConvAcc :=
  npStep a (attnStep now a (convStep a acc))

/-- newConversion of the source, with the clock made explicit. -/
def newConversion (now : Int) (appIns : List AppIn) : Conversion :=
  let total : Int := appIns.length
  let acc := appIns.foldl (appInStep now) convAcc0
  let processed := acc.converted + acc.notPassed
  { total := total
    converted := acc.converted
    notPassed := acc.notPassed
    rate := if 0 < total then (processed : ℚ) / (total : ℚ) * 100 else 0
    fastest := acc.fastest
    fastestPercent :=
      if 0 < processed then (acc.fastest : ℚ) / (processed : ℚ) * 100 else 0
    needAttention := acc.needAttention
    bestTime := acc.bestTime
    averageTime :=
      if 0 < total ∧ 0 < processed then Int.tdiv acc.sum processed else 0 }

/-- Converted predicate for CAFinal, from newCAFinalConversion: lowered
status non-empty, equal to "completed", completion timestamp present. -/
def isConvertedCA (c : CAFinal) : Prop :=
  goToLower c.status ≠ "" ∧ goToLower c.status = "completed" ∧
    c.completedAt ≠ none

instance : DecidablePred isConvertedCA := fun c => by
  unfold isConvertedCA; infer_instance

/-- Pending predicate for CAFinal, from newCAFinalConversion: lowered status
not "completed" and no completion timestamp. -/
def isPendingCA (c : CAFinal) : Prop :=
  goToLower c.status ≠ "completed" ∧ c.completedAt = none

instance : DecidablePred isPendingCA := fun c => by
  unfold isPendingCA; infer_instance

/-- Elapsed duration of a CAFinal record. -/
def elapsedCA (c : CAFinal) : Int :=
  match c.completedAt with
  | some fin => fin - c.createdAt
  | none => 0

/-- Converted branch of the newCAFinalConversion loop body. -/
def convStepCA (c : CAFinal) (acc : ConvAcc) : ConvAcc :=
  if isConvertedCA c then
    let duration := elapsedCA c
    { acc with
      converted := acc.converted + 1
      sum := acc.sum + duration
      fastest := acc.fastest + (if duration ≤ 30 * nsMinute then 1 else 0)
      bestTime := bestUpd acc.bestTime duration }
  else acc

/-- Need-attention branch of the newCAFinalConversion loop body. -/
def attnStepCA (now : Int) (c : CAFinal) (acc : ConvAcc) : ConvAcc :=
  if isPendingCA c ∧ 5 * nsHour < now - c.createdAt then
    { acc with needAttention := acc.needAttention + 1 }
  else acc

/-- One iteration of the newCAFinalConversion loop. -/
def caStep (now : Int) (acc : ConvAcc) (c : CAFinal) : ConvAcc :=
  attnStepCA now c (convStepCA c acc)

/-- newCAFinalConversion of the source, with the clock made explicit.
The review stream has no not-passed counter; all review rates use the
converted count as denominator. -/
def newCAFinalConversion (now : Int) (cs : List CAFinal) : Conversion :=
  let total : Int := cs.length
  let acc := cs.foldl (caStep now) convAcc0
  { total := total
    converted := acc.converted
    notPassed := 0
    rate := if 0 < total then (acc.converted : ℚ) / (total : ℚ) * 100 else 0
    fastest := acc.fastest
    fastestPercent :=
      if 0 < acc.converted then (acc.fastest : ℚ) / (acc.converted : ℚ) * 100
      else 0
    needAttention := acc.needAttention
    bestTime := acc.bestTime
    averageTime :=
      if 0 < total ∧ 0 < acc.converted then Int.tdiv acc.sum acc.converted
      else 0 }

/-- Time-interval bucket of a histogram. -/
structure TimeInterval where
  title : String
  total : Int
deriving DecidableEq

/-- Fixed bucket titles of every histogram, in their fixed order. -/
def bucketTitles : List String :=
  ["<30min", "<1h", "<2h", "<3h", "<4h", "<5h", "5h+"]

/-- Bucket selection switch of the histogram builders: strict comparisons
from the smallest threshold upward, falling through to the 5h+ bucket. -/
def bucketOf (duration : Int) : String :=
  if duration < 30 * nsMinute then "<30min"
  else if duration < nsHour then "<1h"
  else if duration < 2 * nsHour then "<2h"
  else if duration < 3 * nsHour then "<3h"
  else if duration < 4 * nsHour then "<4h"
  else if duration < 5 * nsHour then "<5h"
  else "5h+"

/-- Readout of the bucket tally in title order. The source initialises a
map with every title at zero, increments the bucket of each duration, and
reads the map back in title order; that equals counting, per title, the
durations whose bucket is that title. -/
def mkIntervals (ds : List Int) : List TimeInterval :=
  bucketTitles.map fun t =>
    { title := t, total := ((ds.countP fun d => bucketOf d == t : Nat) : Int) }

/-- Classification predicate of createTimeIntervalsByConverted: raw status
non-empty, lowered status without "not pass", completion present. -/
def histConvApp (a : AppIn) : Prop :=
  a.status ≠ "" ∧ goContains (goToLower a.status) "not pass" = false ∧
    a.completedAt ≠ none

instance : DecidablePred histConvApp := fun a => by
  unfold histConvApp; infer_instance

/-- createTimeIntervalsByConverted of the source. -/
def createTimeIntervalsByConverted (appIns : List AppIn) : List TimeInterval :=
  mkIntervals ((appIns.filter fun a => decide (histConvApp a)).map elapsedOf)

/-- Classification predicate of createTimeIntervalsByPending: raw status
empty and no completion timestamp. -/
def histPendApp (a : AppIn) : Prop := a.status = "" ∧ a.completedAt = none

instance : DecidablePred histPendApp := fun a => by
  unfold histPendApp; infer_instance

/-- createTimeIntervalsByPending of the source, with the clock explicit. -/
def createTimeIntervalsByPending (now : Int) (appIns : List AppIn) :
    List TimeInterval :=
  mkIntervals
    ((appIns.filter fun a => decide (histPendApp a)).map fun a =>
      now - a.createdAt)

/-- Classification predicate of createCAFinalTimeIntervalsByConverted. -/
def histConvCA (c : CAFinal) : Prop :=
  goToLower c.status = "completed" ∧ c.completedAt ≠ none

instance : DecidablePred histConvCA := fun c => by
  unfold histConvCA; infer_instance

/-- createCAFinalTimeIntervalsByConverted of the source. -/
def createCAFinalTimeIntervalsByConverted (cs : List CAFinal) :
    List TimeInterval :=
  mkIntervals ((cs.filter fun c => decide (histConvCA c)).map elapsedCA)

/-- Classification predicate of createCAFinalTimeIntervalsByPending. -/
def histPendCA (c : CAFinal) : Prop :=
  goToLower c.status ≠ "completed" ∧ c.completedAt = none

instance : DecidablePred histPendCA := fun c => by
  unfold histPendCA; infer_instance

/-- createCAFinalTimeIntervalsByPending of the source, clock explicit. -/
def createCAFinalTimeIntervalsByPending (now : Int) (cs : List CAFinal) :
    List TimeInterval :=
  mkIntervals
    ((cs.filter fun c => decide (histPendCA c)).map fun c => now - c.createdAt)

/-- Append a record to the group of key k of an association-list map,
creating the group when the key is new (Go map append). -/
def insertGroup {α : Type} (k : String) (a : α) :
    List (String × List α) → List (String × List α)
  | [] => [(k, [a])]
  | (k', g) :: t =>
    if k' = k then (k', g ++ [a]) :: t else (k', g) :: insertGroup k a t

/-- groupAppInByExecutor of the source: records with an empty executor are
skipped, the rest are appended to the group of their executor. -/
def groupAppInByExecutor (appIns : List AppIn) : List (String × List AppIn) :=
  appIns.foldl
    (fun gs a => if a.executor = "" then gs else insertGroup a.executor a gs) []

/-- groupCAFinalByExecutor of the source. -/
def groupCAFinalByExecutor (cs : List CAFinal) : List (String × List CAFinal) :=
  cs.foldl
    (fun gs c => if c.executor = "" then gs else insertGroup c.executor c gs) []

/-- Group key of groupAppInByProduct: the product label, except that the
"sale auto" product (case-insensitively) is rewritten by a case-insensitive
substring match on the type field, in the order c4c, used car, mc. -/
def productKey (a : AppIn) : String :=
  if goToLower a.product = "sale auto" then
    if goContains (goToLower a.type) "c4c" = true then "C4C | " ++ a.product
    else if goContains (goToLower a.type) "used car" = true then
      "Used Car | " ++ a.product
    else if goContains (goToLower a.type) "mc" = true then "MC | " ++ a.product
    else a.product
  else a.product

/-- groupAppInByProduct of the source: records with an empty type are
skipped, the rest are appended to the group of their product key. -/
def groupAppInByProduct (appIns : List AppIn) : List (String × List AppIn) :=
  appIns.foldl
    (fun gs a => if a.type = "" then gs else insertGroup (productKey a) a gs) []

/-- performerMetric of the source. -/
structure performerMetric where
  displayName : String
  conversion : Conversion
  performances : List TimeInterval
deriving DecidableEq

/-- calculatePerformanceConversionMetricsByExecutor of the source. -/
def calculatePerformanceConversionMetricsByExecutor (now : Int)
    (groups : List (String × List AppIn)) : List (String × performerMetric) :=
  groups.map fun eg =>
    (eg.1,
      { displayName := eg.1
        conversion := newConversion now eg.2
        performances := createTimeIntervalsByConverted eg.2 })

/-- calculateCAFinalConversionMetricsByExecutor of the source. -/
def calculateCAFinalConversionMetricsByExecutor (now : Int)
    (groups : List (String × List CAFinal)) : List (String × performerMetric) :=
  groups.map fun eg =>
    (eg.1,
      { displayName := eg.1
        conversion := newCAFinalConversion now eg.2
        performances := createCAFinalTimeIntervalsByConverted eg.2 })

/-- TopPerformer of the source. -/
structure TopPerformer where
  displayName : String
  converted : Int
  conversionRate : ℚ
deriving DecidableEq

/-- Loop body of getTopPerformer: replace the running top whenever a
performer has strictly more conversions, or equally many with a strictly
higher rate. -/
def topStep (top : TopPerformer) (ec : String × performerMetric) :
    TopPerformer :=
  if ec.2.conversion.converted > top.converted ∨
      (ec.2.conversion.converted = top.converted ∧
        ec.2.conversion.rate > top.conversionRate) then
    { displayName := ec.1
      converted := ec.2.conversion.converted
      conversionRate := ec.2.conversion.rate }
  else top

/-- getTopPerformer of the source: a fold over the performer map starting
from the zero value. -/
def getTopPerformer (conversions : List (String × performerMetric)) :
    TopPerformer :=
  conversions.foldl topStep
    { displayName := "", converted := 0, conversionRate := 0 }

/-- Strict three-key comparator of the sort.Slice calls: converted count
descending, then rate descending, then average time ascending. -/
def lexLess (p q : Int × ℚ × Int) : Prop :=
  p.1 > q.1 ∨ (p.1 = q.1 ∧ p.2.1 > q.2.1) ∨
    (p.1 = q.1 ∧ p.2.1 = q.2.1 ∧ p.2.2 < q.2.2)

instance : DecidableRel lexLess := fun p q => by
  unfold lexLess; infer_instance

/-- Comparator key of a performer metric. -/
def perfKey (m : performerMetric) : Int × ℚ × Int :=
  (m.conversion.converted, m.conversion.rate, m.conversion.averageTime)

/-- Non-strict comparator used for sorting performer metrics: x may come
before y exactly when the strict comparator does not put y before x. -/
def perfLe (x y : performerMetric) : Prop := ¬ lexLess (perfKey y) (perfKey x)

instance : DecidableRel perfLe := fun x y => by
  unfold perfLe; infer_instance

/-- The sort.Slice call of createLeaderboards, modelled as an insertion
sort with the comparator of the source. -/
def sortPerformers (ps : List performerMetric) : List performerMetric :=
  List.insertionSort perfLe ps

/-- Leaderboard entry of the source. -/
structure Leaderboard where
  rank : Int
  displayName : String
  total : Int
  converted : Int
  conversionRate : ℚ
  averageTime : Int
  bestTime : Int
  performances : List TimeInterval
deriving DecidableEq

/-- Leaderboard entry built from a performer metric at a given rank. -/
def mkLeaderboardEntry (rank : Int) (p : performerMetric) : Leaderboard :=
  { rank := rank
    displayName := p.displayName
    total := p.conversion.total
    converted := p.conversion.converted
    conversionRate := p.conversion.rate
    averageTime := p.conversion.averageTime
    bestTime := p.conversion.bestTime
    performances := p.performances }

/-- Rank-assigning loop of createLeaderboards: rank is the 1-based position
in the sorted order. -/
def rankFrom : Int → List performerMetric → List Leaderboard
  | _, [] => []
  | i, p :: t => mkLeaderboardEntry (i + 1) p :: rankFrom (i + 1) t

/-- createLeaderboards of the source: collect the map values, sort them
with the comparator, keep the first five, assign ranks 1, 2, ... . -/
def createLeaderboards (conversions : List (String × performerMetric)) :
    List Leaderboard :=
  rankFrom 0 ((sortPerformers (conversions.map Prod.snd)).take 5)

/-- BestTimeExecutor of the source. -/
structure BestTimeExecutor where
  displayName : String
  bestTime : Int
deriving DecidableEq

/-- Loop body of findBestTimeUsedByExecutor: keep the smallest best time,
considering only performers whose best time is positive. -/
def btStep (s : String × Int) (em : String × performerMetric) : String × Int :=
  if 0 < em.2.conversion.bestTime ∧
      (s.2 = 0 ∨ em.2.conversion.bestTime < s.2) then
    (em.1, em.2.conversion.bestTime)
  else s

/-- findBestTimeUsedByExecutor of the source: the N/A sentinel on an empty
performer map, otherwise a fold keeping the smallest positive best time. -/
def findBestTimeUsedByExecutor (p : List (String × performerMetric)) :
    BestTimeExecutor :=
  if p = [] then { displayName := "N/A", bestTime := 0 }
  else
    let st := p.foldl btStep ("", 0)
    { displayName := st.1, bestTime := st.2 }

/-- ProductMetrics of the source. -/
structure ProductMetrics where
  name : String
  total : Int
  converted : Int
  notPassed : Int
  conversionRate : ℚ
  averageTime : Int
deriving DecidableEq

/-- Comparator key of a product metric. -/
def prodKey (p : ProductMetrics) : Int × ℚ × Int :=
  (p.converted, p.conversionRate, p.averageTime)

/-- Non-strict product comparator, mirroring the sort.Slice call of
calculatePerformanceConversionMetricsByProduct. -/
def prodLe (x y : ProductMetrics) : Prop := ¬ lexLess (prodKey y) (prodKey x)

instance : DecidableRel prodLe := fun x y => by
  unfold prodLe; infer_instance

/-- calculatePerformanceConversionMetricsByProduct of the source. -/
def calculatePerformanceConversionMetricsByProduct (now : Int)
    (appIns : List AppIn) : List ProductMetrics :=
  let groups := groupAppInByProduct appIns
  let products :=
    groups.map fun pg =>
      let c := newConversion now pg.2
      { name := pg.1
        total := (pg.2.length : Int)
        converted := c.converted
        notPassed := c.notPassed
        conversionRate := c.rate
        averageTime := c.averageTime : ProductMetrics }
  List.insertionSort prodLe products

/-- Overview of the source. The optional nested CAFinal overview, attached
by SetCAFinal outside newOverview, is not part of this model. -/
structure Overview where
  activeExecutor : Int
  topPerformer : TopPerformer
  conversion : Conversion
  timeIntervalsByConverted : List TimeInterval
  timeIntervalsByPending : List TimeInterval
  bestTimeUsed : BestTimeExecutor
  leaderboards : List Leaderboard
  productMetrics : List ProductMetrics
deriving DecidableEq

/-- newOverview of the source, with the clock made explicit. -/
def newOverview (now : Int) (appIns : List AppIn) : Overview :=
  let groups := groupAppInByExecutor appIns
  let performances := calculatePerformanceConversionMetricsByExecutor now groups
  { activeExecutor := (groups.length : Int)
    topPerformer := getTopPerformer performances
    conversion := newConversion now appIns
    leaderboards := createLeaderboards performances
    timeIntervalsByConverted := createTimeIntervalsByConverted appIns
    bestTimeUsed := findBestTimeUsedByExecutor performances
    timeIntervalsByPending := createTimeIntervalsByPending now appIns
    productMetrics := calculatePerformanceConversionMetricsByProduct now appIns }

/-! ## Extraction lemmas for the newConversion loop accumulator -/

theorem appInStep_converted (now : Int) (acc : ConvAcc) (a : AppIn) :
    (appInStep now acc a).converted =
      acc.converted + (if isConvertedApp a then 1 else 0) := by
  simp only [appInStep, npStep, attnStep, convStep]
  split_ifs <;> simp

theorem appInStep_notPassed (now : Int) (acc : ConvAcc) (a : AppIn) :
    (appInStep now acc a).notPassed =
      acc.notPassed + (if isNotPassedApp a then 1 else 0) := by
  simp only [appInStep, npStep, attnStep, convStep]
  split_ifs <;> simp

theorem appInStep_needAttention (now : Int) (acc : ConvAcc) (a : AppIn) :
    (appInStep now acc a).needAttention =
      acc.needAttention +
        (if isPendingApp a ∧ 5 * nsHour < now - a.createdAt then 1 else 0) := by
  simp only [appInStep, npStep, attnStep, convStep]
  split_ifs <;> simp

theorem appInStep_fastest (now : Int) (acc : ConvAcc) (a : AppIn) :
    (appInStep now acc a).fastest =
      acc.fastest +
        (if isConvertedApp a ∧ elapsedOf a ≤ 30 * nsMinute then 1 else 0) := by
  simp only [appInStep, npStep, attnStep, convStep]
  by_cases hc : isConvertedApp a <;>
    by_cases hf : elapsedOf a ≤ 30 * nsMinute <;> split_ifs <;>
      simp_all

theorem appInStep_bestTime (now : Int) (acc : ConvAcc) (a : AppIn) :
    (appInStep now acc a).bestTime =
      if isConvertedApp a then bestUpd acc.bestTime (elapsedOf a)
      else acc.bestTime := by
  simp only [appInStep, npStep, attnStep, convStep]
  split_ifs <;> simp

theorem foldl_appInStep_converted (now : Int) (l : List AppIn) (acc : ConvAcc) :
    (l.foldl (appInStep now) acc).converted =
      acc.converted + ((l.countP fun a => decide (isConvertedApp a) : Nat) : Int) := by
  induction l generalizing acc with
  | nil => simp
  | cons a t ih =>
    simp only [List.foldl_cons, List.countP_cons, ih, appInStep_converted]
    by_cases h : isConvertedApp a <;> simp [h] <;> push_cast <;> ring

theorem foldl_appInStep_notPassed (now : Int) (l : List AppIn) (acc : ConvAcc) :
    (l.foldl (appInStep now) acc).notPassed =
      acc.notPassed + ((l.countP fun a => decide (isNotPassedApp a) : Nat) : Int) := by
  induction l generalizing acc with
  | nil => simp
  | cons a t ih =>
    simp only [List.foldl_cons, List.countP_cons, ih, appInStep_notPassed]
    by_cases h : isNotPassedApp a <;> simp [h] <;> push_cast <;> ring

theorem foldl_appInStep_needAttention (now : Int) (l : List AppIn)
    (acc : ConvAcc) :
    (l.foldl (appInStep now) acc).needAttention =
      acc.needAttention +
        ((l.countP fun a =>
            decide (isPendingApp a ∧ 5 * nsHour < now - a.createdAt) : Nat) :
          Int) := by
  induction l generalizing acc with
  | nil => simp
  | cons a t ih =>
    simp only [List.foldl_cons, List.countP_cons, ih, appInStep_needAttention]
    by_cases h : isPendingApp a ∧ 5 * nsHour < now - a.createdAt <;>
      simp [h] <;> push_cast <;> ring

theorem foldl_appInStep_fastest (now : Int) (l : List AppIn) (acc : ConvAcc) :
    (l.foldl (appInStep now) acc).fastest =
      acc.fastest +
        ((l.countP fun a =>
            decide (isConvertedApp a ∧ elapsedOf a ≤ 30 * nsMinute) : Nat) :
          Int) := by
  induction l generalizing acc with
  | nil => simp
  | cons a t ih =>
    simp only [List.foldl_cons, List.countP_cons, ih, appInStep_fastest]
    by_cases h : isConvertedApp a ∧ elapsedOf a ≤ 30 * nsMinute <;>
      simp [h] <;> push_cast <;> ring

theorem foldl_appInStep_bestTime (now : Int) (l : List AppIn) (acc : ConvAcc) :
    (l.foldl (appInStep now) acc).bestTime =
      ((l.filter fun a => decide (isConvertedApp a)).map elapsedOf).foldl
        bestUpd acc.bestTime := by
  induction l generalizing acc with
  | nil => simp
  | cons a t ih =>
    simp only [List.foldl_cons, List.filter_cons, ih]
    by_cases h : isConvertedApp a <;>
      simp [h, appInStep_bestTime, List.foldl_cons]

/-! ## Mutual exclusivity of the three AppIn dispositions -/

theorem goContains_empty_false : goContains "" "not pass" = false := by decide

theorem convApp_not_npApp (a : AppIn) :
    isConvertedApp a → ¬ isNotPassedApp a := by
  intro h hn
  exact absurd (h.2.1.symm.trans hn) (by decide)

theorem convApp_not_pendApp (a : AppIn) :
    isConvertedApp a → ¬ isPendingApp a := by
  intro h hp
  exact h.1 hp.1

theorem npApp_not_pendApp (a : AppIn) :
    isNotPassedApp a → ¬ isPendingApp a := by
  intro hn hp
  unfold isNotPassedApp at hn
  rw [hp.1] at hn
  exact absurd (goContains_empty_false.symm.trans hn) (by decide)

/-- Covered records: those matching one of the three dispositions. -/
def coveredApp (a : AppIn) : Prop :=
  isConvertedApp a ∨ isNotPassedApp a ∨ isPendingApp a

instance : DecidablePred coveredApp := fun a => by
  unfold coveredApp; infer_instance

theorem countP_three_partition (l : List AppIn) :
    l.countP (fun a => decide (isConvertedApp a)) +
      l.countP (fun a => decide (isNotPassedApp a)) +
      l.countP (fun a => decide (isPendingApp a)) +
      l.countP (fun a => decide (¬ coveredApp a)) = l.length := by
  induction l with
  | nil => simp
  | cons a t ih =>
    have h1 := convApp_not_npApp a
    have h2 := convApp_not_pendApp a
    have h3 := npApp_not_pendApp a
    simp only [List.countP_cons, List.length_cons]
    by_cases hc : isConvertedApp a <;> by_cases hn : isNotPassedApp a <;>
      by_cases hp : isPendingApp a <;>
        simp_all [coveredApp] <;> omega

/-! ## Field characterizations of newConversion -/

theorem newConversion_total (now : Int) (l : List AppIn) :
    (newConversion now l).total = (l.length : Int) := by
  simp [newConversion]

theorem newConversion_converted (now : Int) (l : List AppIn) :
    (newConversion now l).converted =
      ((l.countP fun a => decide (isConvertedApp a) : Nat) : Int) := by
  simp [newConversion, foldl_appInStep_converted, convAcc0]

theorem newConversion_notPassed (now : Int) (l : List AppIn) :
    (newConversion now l).notPassed =
      ((l.countP fun a => decide (isNotPassedApp a) : Nat) : Int) := by
  simp [newConversion, foldl_appInStep_notPassed, convAcc0]

theorem newConversion_needAttention (now : Int) (l : List AppIn) :
    (newConversion now l).needAttention =
      ((l.countP fun a =>
          decide (isPendingApp a ∧ 5 * nsHour < now - a.createdAt) : Nat) :
        Int) := by
  simp [newConversion, foldl_appInStep_needAttention, convAcc0]

theorem newConversion_fastest (now : Int) (l : List AppIn) :
    (newConversion now l).fastest =
      ((l.countP fun a =>
          decide (isConvertedApp a ∧ elapsedOf a ≤ 30 * nsMinute) : Nat) :
        Int) := by
  simp [newConversion, foldl_appInStep_fastest, convAcc0]

theorem newConversion_bestTime (now : Int) (l : List AppIn) :
    (newConversion now l).bestTime =
      ((l.filter fun a => decide (isConvertedApp a)).map elapsedOf).foldl
        bestUpd 0 := by
  simp [newConversion, foldl_appInStep_bestTime, convAcc0]

theorem newConversion_rate (now : Int) (l : List AppIn) :
    (newConversion now l).rate =
      if 0 < (l.length : Int) then
        (((newConversion now l).converted + (newConversion now l).notPassed :
            Int) : ℚ) / ((l.length : Int) : ℚ) * 100
      else 0 := by
  simp [newConversion]

theorem newConversion_fastestPercent (now : Int) (l : List AppIn) :
    (newConversion now l).fastestPercent =
      if 0 < (newConversion now l).converted + (newConversion now l).notPassed
      then ((newConversion now l).fastest : ℚ) /
        (((newConversion now l).converted + (newConversion now l).notPassed :
            Int) : ℚ) * 100
      else 0 := by
  simp [newConversion]

theorem newConversion_averageTime (now : Int) (l : List AppIn) :
    (newConversion now l).averageTime =
      if 0 < (l.length : Int) ∧
          0 < (newConversion now l).converted + (newConversion now l).notPassed
      then Int.tdiv (l.foldl (appInStep now) convAcc0).sum
        ((newConversion now l).converted + (newConversion now l).notPassed)
      else 0 := by
  simp [newConversion]

/-! ## Extraction lemmas for the newCAFinalConversion loop accumulator -/

theorem caStep_converted (now : Int) (acc : ConvAcc) (c : CAFinal) :
    (caStep now acc c).converted =
      acc.converted + (if isConvertedCA c then 1 else 0) := by
  simp only [caStep, attnStepCA, convStepCA]
  split_ifs <;> simp

theorem caStep_fastest (now : Int) (acc : ConvAcc) (c : CAFinal) :
    (caStep now acc c).fastest =
      acc.fastest +
        (if isConvertedCA c ∧ elapsedCA c ≤ 30 * nsMinute then 1 else 0) := by
  simp only [caStep, attnStepCA, convStepCA]
  by_cases hc : isConvertedCA c <;>
    by_cases hf : elapsedCA c ≤ 30 * nsMinute <;> split_ifs <;> simp_all

theorem foldl_caStep_converted (now : Int) (l : List CAFinal) (acc : ConvAcc) :
    (l.foldl (caStep now) acc).converted =
      acc.converted + ((l.countP fun c => decide (isConvertedCA c) : Nat) : Int) := by
  induction l generalizing acc with
  | nil => simp
  | cons c t ih =>
    simp only [List.foldl_cons, List.countP_cons, ih, caStep_converted]
    by_cases h : isConvertedCA c <;> simp [h] <;> push_cast <;> ring

theorem foldl_caStep_fastest (now : Int) (l : List CAFinal) (acc : ConvAcc) :
    (l.foldl (caStep now) acc).fastest =
      acc.fastest +
        ((l.countP fun c =>
            decide (isConvertedCA c ∧ elapsedCA c ≤ 30 * nsMinute) : Nat) :
          Int) := by
  induction l generalizing acc with
  | nil => simp
  | cons c t ih =>
    simp only [List.foldl_cons, List.countP_cons, ih, caStep_fastest]
    by_cases h : isConvertedCA c ∧ elapsedCA c ≤ 30 * nsMinute <;>
      simp [h] <;> push_cast <;> ring

theorem newCAFinalConversion_total (now : Int) (l : List CAFinal) :
    (newCAFinalConversion now l).total = (l.length : Int) := by
  simp [newCAFinalConversion]

theorem newCAFinalConversion_converted (now : Int) (l : List CAFinal) :
    (newCAFinalConversion now l).converted =
      ((l.countP fun c => decide (isConvertedCA c) : Nat) : Int) := by
  simp [newCAFinalConversion, foldl_caStep_converted, convAcc0]

theorem newCAFinalConversion_fastest (now : Int) (l : List CAFinal) :
    (newCAFinalConversion now l).fastest =
      ((l.countP fun c =>
          decide (isConvertedCA c ∧ elapsedCA c ≤ 30 * nsMinute) : Nat) :
        Int) := by
  simp [newCAFinalConversion, foldl_caStep_fastest, convAcc0]

theorem newCAFinalConversion_rate (now : Int) (l : List CAFinal) :
    (newCAFinalConversion now l).rate =
      if 0 < (l.length : Int) then
        (((newCAFinalConversion now l).converted : Int) : ℚ) /
          ((l.length : Int) : ℚ) * 100
      else 0 := by
  simp [newCAFinalConversion]

theorem newCAFinalConversion_fastestPercent (now : Int) (l : List CAFinal) :
    (newCAFinalConversion now l).fastestPercent =
      if 0 < (newCAFinalConversion now l).converted then
        ((newCAFinalConversion now l).fastest : ℚ) /
          (((newCAFinalConversion now l).converted : Int) : ℚ) * 100
      else 0 := by
  simp [newCAFinalConversion]

theorem newCAFinalConversion_averageTime (now : Int) (l : List CAFinal) :
    (newCAFinalConversion now l).averageTime =
      if 0 < (l.length : Int) ∧ 0 < (newCAFinalConversion now l).converted
      then Int.tdiv (l.foldl (caStep now) convAcc0).sum
        (newCAFinalConversion now l).converted
      else 0 := by
  simp [newCAFinalConversion]

/-! ## Example records -/

/-- Example record: a converted application completed in exactly 30 minutes. -/
def exApp30min : AppIn :=
  { product := "p", type := "t", status := "Done", executor := "A",
    completedAt := some (30 * nsMinute), createdAt := 0 }

/-- Example record: a non-empty status that neither contains "not pass" nor
comes with a completion timestamp. -/
def exOpenStatusApp : AppIn :=
  { product := "p", type := "t", status := "in progress", executor := "A",
    completedAt := none, createdAt := 0 }

/-- C10: a converted Application record whose elapsed time is exactly 30
minutes is counted in the Conversion Summary fastest count (the threshold
test is elapsed ≤ 30 minutes) but lands in the <1h bucket of the
completed-duration histogram, not the <30min bucket (the bucket test is
strict elapsed < 30 minutes), so the fastest count exceeds the <30min
bucket count. -/
theorem C10_fastest_boundary :
    (newConversion 0 [exApp30min]).fastest = 1 ∧
      (createTimeIntervalsByConverted [exApp30min]).map
          (fun t => (t.title, t.total)) =
        [("<30min", 0), ("<1h", 1), ("<2h", 0), ("<3h", 0), ("<4h", 0),
          ("<5h", 0), ("5h+", 0)] := by
  decide

/-- C1 counterexample: a record with status "in progress" and no completion
timestamp is classified by none of the three dispositions, so the converted,
not-passed and pending counts sum to 0 while the total is 1; the three
predicates of the code are not exhaustive and the claimed count identity
fails. -/
theorem C1_counterexample :
    ¬ ((newConversion 0 [exOpenStatusApp]).converted +
        (newConversion 0 [exOpenStatusApp]).notPassed +
        (([exOpenStatusApp].countP fun a => decide (isPendingApp a) : Nat) :
          Int) =
        (newConversion 0 [exOpenStatusApp]).total) := by
  decide

/-- C1 (amended): the three disposition predicates of newConversion are
mutually exclusive and needs-attention increments only for pending records,
but they are not exhaustive: a record with a non-empty status that does not
contain "not pass" and has no completion timestamp, or an empty status with
a completion timestamp, matches none of them. Hence converted + not-passed
+ pending-count is at most the total, with equality exactly when every
record matches one of the three dispositions. -/
theorem C1_classification (now : Int) (l : List AppIn) :
    (∀ a : AppIn,
        ¬ (isConvertedApp a ∧ isNotPassedApp a) ∧
          ¬ (isConvertedApp a ∧ isPendingApp a) ∧
          ¬ (isNotPassedApp a ∧ isPendingApp a)) ∧
      (newConversion now l).converted + (newConversion now l).notPassed +
          ((l.countP fun a => decide (isPendingApp a) : Nat) : Int) ≤
        (newConversion now l).total ∧
      ((newConversion now l).converted + (newConversion now l).notPassed +
            ((l.countP fun a => decide (isPendingApp a) : Nat) : Int) =
          (newConversion now l).total ↔
        ∀ a ∈ l, coveredApp a) ∧
      (newConversion now l).needAttention ≤
        ((l.countP fun a => decide (isPendingApp a) : Nat) : Int) := by
  have hpart := countP_three_partition l
  have hα :
      (newConversion now l).converted + (newConversion now l).notPassed +
          ((l.countP fun a => decide (isPendingApp a) : Nat) : Int) +
          ((l.countP fun a => decide (¬ coveredApp a) : Nat) : Int) =
        (newConversion now l).total := by
    rw [newConversion_converted, newConversion_notPassed, newConversion_total]
    push_cast
    exact_mod_cast hpart
  refine ⟨fun a => ⟨fun h => convApp_not_npApp a h.1 h.2,
      fun h => convApp_not_pendApp a h.1 h.2,
      fun h => npApp_not_pendApp a h.1 h.2⟩, ?_, ?_, ?_⟩
  · have : (0 : Int) ≤ ((l.countP fun a => decide (¬ coveredApp a) : Nat) : Int) :=
      Int.natCast_nonneg _
    omega
  · constructor
    · intro h
      have hz : ((l.countP fun a => decide (¬ coveredApp a) : Nat) : Int) = 0 := by
        omega
      have hz' : (l.countP fun a => decide (¬ coveredApp a)) = 0 := by
        exact_mod_cast hz
      rw [List.countP_eq_zero] at hz'
      intro a ha
      have := hz' a ha
      simpa using this
    · intro h
      have hz : (l.countP fun a => decide (¬ coveredApp a)) = 0 := by
        rw [List.countP_eq_zero]
        intro a ha
        simpa using h a ha
      rw [hz] at hα
      simpa using hα
  · rw [newConversion_needAttention]
    have : (l.countP fun a =>
          decide (isPendingApp a ∧ 5 * nsHour < now - a.createdAt)) ≤
        l.countP fun a => decide (isPendingApp a) := by
      apply List.countP_mono_left
      intro a _ h
      simp only [decide_eq_true_eq] at h ⊢
      exact h.1
    exact_mod_cast this

/-- C1 witness: on a single converted record the three counts account for
the whole list, discharging the coverage hypothesis of the equality
direction of the amended claim. -/
theorem C1_witness :
    (newConversion 0 [exApp30min]).converted +
        (newConversion 0 [exApp30min]).notPassed +
        (([exApp30min].countP fun a => decide (isPendingApp a) : Nat) : Int) =
      (newConversion 0 [exApp30min]).total :=
  (C1_classification 0 [exApp30min]).2.2.1.mpr (by decide)

/-! ## Rate bounds -/

theorem pct_bounds (p t : Int) (h0 : 0 ≤ p) (hpt : p ≤ t) :
    0 ≤ (if 0 < t then ((p : Int) : ℚ) / ((t : Int) : ℚ) * 100 else 0) ∧
      (if 0 < t then ((p : Int) : ℚ) / ((t : Int) : ℚ) * 100 else 0) ≤ 100 := by
  split_ifs with ht
  · have htq : (0 : ℚ) < ((t : Int) : ℚ) := by exact_mod_cast ht
    have hpq : (0 : ℚ) ≤ ((p : Int) : ℚ) := by exact_mod_cast h0
    have h1 : ((p : Int) : ℚ) / ((t : Int) : ℚ) ≤ 1 := by
      rw [div_le_one htq]; exact_mod_cast hpt
    constructor
    · positivity
    · calc ((p : Int) : ℚ) / ((t : Int) : ℚ) * 100 ≤ 1 * 100 :=
          mul_le_mul_of_nonneg_right h1 (by norm_num)
        _ = 100 := by norm_num
  · norm_num

theorem processed_le_total (l : List AppIn) :
    (l.countP fun a => decide (isConvertedApp a)) +
        (l.countP fun a => decide (isNotPassedApp a)) ≤ l.length := by
  have := countP_three_partition l
  omega

theorem fastest_le_converted (l : List AppIn) :
    (l.countP fun a =>
        decide (isConvertedApp a ∧ elapsedOf a ≤ 30 * nsMinute)) ≤
      l.countP fun a => decide (isConvertedApp a) := by
  apply List.countP_mono_left
  intro a _ h
  simp only [decide_eq_true_eq] at h ⊢
  exact h.1

theorem fastestCA_le_convertedCA (l : List CAFinal) :
    (l.countP fun c =>
        decide (isConvertedCA c ∧ elapsedCA c ≤ 30 * nsMinute)) ≤
      l.countP fun c => decide (isConvertedCA c) := by
  apply List.countP_mono_left
  intro c _ h
  simp only [decide_eq_true_eq] at h ⊢
  exact h.1

/-- C5: the conversion rate and fastest-percent of both streams always lie
in the interval from 0 to 100 and are exactly 0 when their denominator is
0: the rate is 0 when the total is 0, and the average time and
fastest-percent are 0 when the processed count (converted plus not-passed
for applications, converted alone for reviews) is 0. -/
theorem C5_rate_bounds (now : Int) (l : List AppIn) (cs : List CAFinal) :
    (0 ≤ (newConversion now l).rate ∧ (newConversion now l).rate ≤ 100) ∧
      (0 ≤ (newConversion now l).fastestPercent ∧
        (newConversion now l).fastestPercent ≤ 100) ∧
      ((newConversion now l).total = 0 → (newConversion now l).rate = 0) ∧
      ((newConversion now l).converted + (newConversion now l).notPassed = 0 →
        (newConversion now l).averageTime = 0 ∧
          (newConversion now l).fastestPercent = 0) ∧
      (0 ≤ (newCAFinalConversion now cs).rate ∧
        (newCAFinalConversion now cs).rate ≤ 100) ∧
      (0 ≤ (newCAFinalConversion now cs).fastestPercent ∧
        (newCAFinalConversion now cs).fastestPercent ≤ 100) ∧
      ((newCAFinalConversion now cs).total = 0 →
        (newCAFinalConversion now cs).rate = 0) ∧
      ((newCAFinalConversion now cs).converted = 0 →
        (newCAFinalConversion now cs).averageTime = 0 ∧
          (newCAFinalConversion now cs).fastestPercent = 0) := by
  have hconv := newConversion_converted now l
  have hnp := newConversion_notPassed now l
  have hfast := newConversion_fastest now l
  have htot := newConversion_total now l
  have hcC := newCAFinalConversion_converted now cs
  have hfC := newCAFinalConversion_fastest now cs
  have htC := newCAFinalConversion_total now cs
  refine ⟨?_, ?_, ?_, ?_, ?_, ?_, ?_, ?_⟩
  · rw [newConversion_rate]
    apply pct_bounds
    · rw [hconv, hnp]; push_cast; positivity
    · rw [hconv, hnp]
      have := processed_le_total l
      push_cast
      exact_mod_cast this
  · rw [newConversion_fastestPercent]
    apply pct_bounds
    · rw [hfast]; positivity
    · rw [hfast, hconv, hnp]
      have h1 := fastest_le_converted l
      have h2 : (0 : Int) ≤ ((l.countP fun a => decide (isNotPassedApp a) : Nat) : Int) :=
        Int.natCast_nonneg _
      have h1' : ((l.countP fun a =>
            decide (isConvertedApp a ∧ elapsedOf a ≤ 30 * nsMinute) : Nat) : Int) ≤
          ((l.countP fun a => decide (isConvertedApp a) : Nat) : Int) := by
        exact_mod_cast h1
      omega
  · intro h
    rw [newConversion_rate]
    rw [htot] at h
    simp [h]
  · intro h
    constructor
    · rw [newConversion_averageTime, if_neg]
      rw [h]
      simp
    · rw [newConversion_fastestPercent, if_neg]
      rw [h]
      simp
  · rw [newCAFinalConversion_rate]
    apply pct_bounds
    · rw [hcC]; positivity
    · rw [hcC]
      exact_mod_cast List.countP_le_length _
  · rw [newCAFinalConversion_fastestPercent]
    apply pct_bounds
    · rw [hfC]; positivity
    · rw [hfC, hcC]
      exact_mod_cast fastestCA_le_convertedCA cs
  · intro h
    rw [newCAFinalConversion_rate]
    rw [htC] at h
    simp [h]
  · intro h
    constructor
    · rw [newCAFinalConversion_averageTime, if_neg]
      rw [h]
      simp
    · rw [newCAFinalConversion_fastestPercent, if_neg]
      rw [h]
      simp

/-- C5 witness: on empty inputs both streams report a zero rate, a zero
average time and a zero fastest-percent, discharging the zero-denominator
hypotheses of the claim at a concrete input. -/
theorem C5_witness :
    (newConversion 0 []).rate = 0 ∧ (newConversion 0 []).averageTime = 0 ∧
      (newConversion 0 []).fastestPercent = 0 ∧
      (newCAFinalConversion 0 []).rate = 0 ∧
      (newCAFinalConversion 0 []).averageTime = 0 ∧
      (newCAFinalConversion 0 []).fastestPercent = 0 :=
  ⟨(C5_rate_bounds 0 [] []).2.2.1 (by decide),
    ((C5_rate_bounds 0 [] []).2.2.2.1 (by decide)).1,
    ((C5_rate_bounds 0 [] []).2.2.2.1 (by decide)).2,
    (C5_rate_bounds 0 [] []).2.2.2.2.2.2.1 (by decide),
    ((C5_rate_bounds 0 [] []).2.2.2.2.2.2.2 (by decide)).1,
    ((C5_rate_bounds 0 [] []).2.2.2.2.2.2.2 (by decide)).2⟩

/-! ## Histogram lemmas -/

theorem bucketOf_cases (d : Int) :
    bucketOf d = "<30min" ∨ bucketOf d = "<1h" ∨ bucketOf d = "<2h" ∨
      bucketOf d = "<3h" ∨ bucketOf d = "<4h" ∨ bucketOf d = "<5h" ∨
      bucketOf d = "5h+" := by
  unfold bucketOf
  split_ifs <;> simp

theorem bucketOf_mem (d : Int) : bucketOf d ∈ bucketTitles := by
  rcases bucketOf_cases d with h | h | h | h | h | h | h <;> rw [h] <;> decide

theorem bucket_count_one (d : Int) :
    bucketTitles.countP (fun t => bucketOf d == t) = 1 := by
  rcases bucketOf_cases d with h | h | h | h | h | h | h <;> rw [h] <;> decide

theorem sum_map_ite (ts : List String) (p : String → Bool) :
    (ts.map fun t => if p t then (1 : Nat) else 0).sum = ts.countP p := by
  induction ts with
  | nil => simp
  | cons t ts ih =>
    simp only [List.map_cons, List.sum_cons, List.countP_cons, ih]
    omega

theorem sum_map_add_nat (ts : List String) (f g : String → Nat) :
    (ts.map fun t => f t + g t).sum = (ts.map f).sum + (ts.map g).sum := by
  induction ts with
  | nil => simp
  | cons t ts ih =>
    simp only [List.map_cons, List.sum_cons, ih]
    omega

theorem counts_sum (ds : List Int) :
    (bucketTitles.map fun t => ds.countP fun d => bucketOf d == t).sum =
      ds.length := by
  induction ds with
  | nil => simp
  | cons d ds ih =>
    simp only [List.countP_cons, List.length_cons]
    rw [sum_map_add_nat, sum_map_ite, bucket_count_one, ih]

theorem sum_map_natCast (ts : List String) (f : String → Nat) :
    (ts.map fun t => ((f t : Nat) : Int)).sum = (((ts.map f).sum : Nat) : Int) := by
  induction ts with
  | nil => simp
  | cons t ts ih => simp [ih]

theorem mkIntervals_titles (ds : List Int) :
    (mkIntervals ds).map (fun b => b.title) = bucketTitles := by
  simp [mkIntervals, List.map_map, Function.comp_def]

theorem mkIntervals_nonneg (ds : List Int) :
    ∀ b ∈ mkIntervals ds, 0 ≤ b.total := by
  intro b hb
  simp only [mkIntervals, List.mem_map] at hb
  obtain ⟨s, _, rfl⟩ := hb
  exact Int.natCast_nonneg _

theorem mkIntervals_sum (ds : List Int) :
    ((mkIntervals ds).map (fun b => b.total)).sum = (ds.length : Int) := by
  simp only [mkIntervals, List.map_map, Function.comp_def]
  rw [sum_map_natCast]
  rw [counts_sum]

/-- C6: every histogram has exactly the fixed ordered bucket set, in that
order, with every bucket present even at zero count; each duration is
assigned to exactly one title by the strict upward comparisons with
fall-through to 5h+, and the counts are non-negative and sum to the number
of records satisfying that histogram's classification predicate. -/
theorem C6_histograms (now : Int) (l : List AppIn) (cs : List CAFinal) :
    (∀ d : Int, bucketOf d ∈ bucketTitles ∧
        bucketTitles.countP (fun t => bucketOf d == t) = 1) ∧
      ((createTimeIntervalsByConverted l).map (fun b => b.title) =
          bucketTitles ∧
        (∀ b ∈ createTimeIntervalsByConverted l, 0 ≤ b.total) ∧
        ((createTimeIntervalsByConverted l).map (fun b => b.total)).sum =
          ((l.countP fun a => decide (histConvApp a) : Nat) : Int)) ∧
      ((createTimeIntervalsByPending now l).map (fun b => b.title) =
          bucketTitles ∧
        (∀ b ∈ createTimeIntervalsByPending now l, 0 ≤ b.total) ∧
        ((createTimeIntervalsByPending now l).map (fun b => b.total)).sum =
          ((l.countP fun a => decide (histPendApp a) : Nat) : Int)) ∧
      ((createCAFinalTimeIntervalsByConverted cs).map (fun b => b.title) =
          bucketTitles ∧
        (∀ b ∈ createCAFinalTimeIntervalsByConverted cs, 0 ≤ b.total) ∧
        ((createCAFinalTimeIntervalsByConverted cs).map (fun b => b.total)).sum =
          ((cs.countP fun c => decide (histConvCA c) : Nat) : Int)) ∧
      ((createCAFinalTimeIntervalsByPending now cs).map (fun b => b.title) =
          bucketTitles ∧
        (∀ b ∈ createCAFinalTimeIntervalsByPending now cs, 0 ≤ b.total) ∧
        ((createCAFinalTimeIntervalsByPending now cs).map (fun b => b.total)).sum =
          ((cs.countP fun c => decide (histPendCA c) : Nat) : Int)) := by
  refine ⟨fun d => ⟨bucketOf_mem d, bucket_count_one d⟩, ⟨?_, ?_, ?_⟩,
    ⟨?_, ?_, ?_⟩, ⟨?_, ?_, ?_⟩, ⟨?_, ?_, ?_⟩⟩
  · exact mkIntervals_titles _
  · exact mkIntervals_nonneg _
  · rw [createTimeIntervalsByConverted, mkIntervals_sum]
    simp [List.countP_eq_length_filter]
  · exact mkIntervals_titles _
  · exact mkIntervals_nonneg _
  · rw [createTimeIntervalsByPending, mkIntervals_sum]
    simp [List.countP_eq_length_filter]
  · exact mkIntervals_titles _
  · exact mkIntervals_nonneg _
  · rw [createCAFinalTimeIntervalsByConverted, mkIntervals_sum]
    simp [List.countP_eq_length_filter]
  · exact mkIntervals_titles _
  · exact mkIntervals_nonneg _
  · rw [createCAFinalTimeIntervalsByPending, mkIntervals_sum]
    simp [List.countP_eq_length_filter]

/-! ## Best-time characterizations -/

theorem bestUpd_aux (ds : List Int) (b : Int) (hb : nsMinute ≤ b) :
    (ds.foldl bestUpd b = b ∨
        ds.foldl bestUpd b ∈ ds.filter fun d => decide (nsMinute ≤ d)) ∧
      ds.foldl bestUpd b ≤ b ∧
      ∀ d ∈ ds.filter (fun d => decide (nsMinute ≤ d)), ds.foldl bestUpd b ≤ d := by
  induction ds generalizing b with
  | nil => simp
  | cons d t ih =>
    have hbpos : (0 : Int) < b := lt_of_lt_of_le (by norm_num [nsMinute]) hb
    have hfilT : nsMinute ≤ d →
        (d :: t).filter (fun x => decide (nsMinute ≤ x)) =
          d :: t.filter (fun x => decide (nsMinute ≤ x)) := by
      intro h; simp [List.filter_cons, h]
    have hfilF : ¬ nsMinute ≤ d →
        (d :: t).filter (fun x => decide (nsMinute ≤ x)) =
          t.filter (fun x => decide (nsMinute ≤ x)) := by
      intro h; simp [List.filter_cons, h]
    by_cases hd : nsMinute ≤ d
    · rw [List.foldl_cons, hfilT hd]
      by_cases hlt : d < b
      · have hupd : bestUpd b d = d := by
          unfold bestUpd
          rw [if_pos ⟨Or.inr hlt, hd⟩]
        rw [hupd]
        obtain ⟨h1, h2, h3⟩ := ih d hd
        refine ⟨?_, le_trans h2 (le_of_lt hlt), ?_⟩
        · rcases h1 with h | h
          · exact Or.inr (by simp [h])
          · exact Or.inr (by simp [h])
        · intro x hx
          simp only [List.mem_cons] at hx
          rcases hx with rfl | hx
          · exact h2
          · exact h3 x hx
      · have hupd : bestUpd b d = b := by
          unfold bestUpd
          rw [if_neg]
          rintro ⟨h | h, -⟩
          · omega
          · exact hlt h
        rw [hupd]
        obtain ⟨h1, h2, h3⟩ := ih b hb
        refine ⟨?_, h2, ?_⟩
        · rcases h1 with h | h
          · exact Or.inl h
          · exact Or.inr (by simp [h])
        · intro x hx
          simp only [List.mem_cons] at hx
          rcases hx with rfl | hx
          · omega
          · exact h3 x hx
    · have hupd : bestUpd b d = b := by
        unfold bestUpd
        rw [if_neg]
        rintro ⟨-, h⟩
        exact hd h
      rw [List.foldl_cons, hfilF hd, hupd]
      exact ih b hb

theorem bestFold_char (ds : List Int) :
    (ds.filter (fun d => decide (nsMinute ≤ d)) = [] →
        ds.foldl bestUpd 0 = 0) ∧
      (ds.filter (fun d => decide (nsMinute ≤ d)) ≠ [] →
        ds.foldl bestUpd 0 ∈ ds.filter (fun d => decide (nsMinute ≤ d)) ∧
          ∀ d ∈ ds.filter (fun d => decide (nsMinute ≤ d)),
            ds.foldl bestUpd 0 ≤ d) := by
  induction ds with
  | nil => simp
  | cons d t ih =>
    have hfilT : nsMinute ≤ d →
        (d :: t).filter (fun x => decide (nsMinute ≤ x)) =
          d :: t.filter (fun x => decide (nsMinute ≤ x)) := by
      intro h; simp [List.filter_cons, h]
    have hfilF : ¬ nsMinute ≤ d →
        (d :: t).filter (fun x => decide (nsMinute ≤ x)) =
          t.filter (fun x => decide (nsMinute ≤ x)) := by
      intro h; simp [List.filter_cons, h]
    by_cases hd : nsMinute ≤ d
    · have hupd : bestUpd 0 d = d := by
        unfold bestUpd
        rw [if_pos ⟨Or.inl rfl, hd⟩]
      rw [List.foldl_cons, hfilT hd, hupd]
      obtain ⟨h1, h2, h3⟩ := bestUpd_aux t d hd
      refine ⟨by simp, fun _ => ⟨?_, ?_⟩⟩
      · rcases h1 with h | h
        · exact by simp [h]
        · exact by simp [h]
      · intro x hx
        simp only [List.mem_cons] at hx
        rcases hx with rfl | hx
        · exact h2
        · exact h3 x hx
    · have hupd : bestUpd 0 d = 0 := by
        unfold bestUpd
        rw [if_neg]
        rintro ⟨-, h⟩
        exact hd h
      rw [List.foldl_cons, hfilF hd, hupd]
      exact ih

theorem btStep_fold_keep (ps : List (String × performerMetric))
    (s : String × Int) (h : ∀ em ∈ ps, em.2.conversion.bestTime ≤ 0) :
    ps.foldl btStep s = s := by
  induction ps generalizing s with
  | nil => rfl
  | cons em t ih =>
    have hem := h em (by simp)
    have hstep : btStep s em = s := by
      unfold btStep
      rw [if_neg]
      rintro ⟨h1, -⟩
      omega
    simp only [List.foldl_cons, hstep]
    exact ih _ fun x hx => h x (by simp [hx])

theorem btStep_fold_char (ps : List (String × performerMetric))
    (s : String × Int) (hs : s.2 = 0 ∨ 0 < s.2) :
    (ps.foldl btStep s = s ∨
        ∃ em ∈ ps, em.1 = (ps.foldl btStep s).1 ∧
          em.2.conversion.bestTime = (ps.foldl btStep s).2 ∧
          0 < (ps.foldl btStep s).2) ∧
      (∀ em ∈ ps, 0 < em.2.conversion.bestTime →
        0 < (ps.foldl btStep s).2 ∧
          (ps.foldl btStep s).2 ≤ em.2.conversion.bestTime) ∧
      (0 < s.2 → 0 < (ps.foldl btStep s).2 ∧ (ps.foldl btStep s).2 ≤ s.2) := by
  induction ps generalizing s with
  | nil => simp
  | cons em t ih =>
    by_cases hc : 0 < em.2.conversion.bestTime ∧
        (s.2 = 0 ∨ em.2.conversion.bestTime < s.2)
    · have hstep : btStep s em = (em.1, em.2.conversion.bestTime) := by
        unfold btStep
        rw [if_pos hc]
      simp only [List.foldl_cons, hstep]
      obtain ⟨ih1, ih2, ih3⟩ :=
        ih (em.1, em.2.conversion.bestTime) (Or.inr hc.1)
      have hr := ih3 hc.1
      refine ⟨?_, ?_, ?_⟩
      · rcases ih1 with h | ⟨x, hx, h1, h2, h3⟩
        · exact Or.inr ⟨em, by simp, by simp [h], by simp [h], by
            rw [h]; exact hc.1⟩
        · exact Or.inr ⟨x, by simp [hx], h1, h2, h3⟩
      · intro x hx hxpos
        simp only [List.mem_cons] at hx
        rcases hx with rfl | hx
        · exact ⟨hr.1, hr.2⟩
        · exact ih2 x hx hxpos
      · intro hspos
        rcases hc.2 with h0 | hlt
        · omega
        · exact ⟨hr.1, le_trans hr.2 (le_of_lt hlt)⟩
    · have hstep : btStep s em = s := by
        unfold btStep
        rw [if_neg hc]
      simp only [List.foldl_cons, hstep]
      obtain ⟨ih1, ih2, ih3⟩ := ih s hs
      refine ⟨?_, ?_, ih3⟩
      · rcases ih1 with h | ⟨x, hx, h1, h2, h3⟩
        · exact Or.inl h
        · exact Or.inr ⟨x, by simp [hx], h1, h2, h3⟩
      · intro x hx hxpos
        simp only [List.mem_cons] at hx
        rcases hx with rfl | hx
        · rcases hs with h0 | hspos
          · exact absurd ⟨hxpos, Or.inl h0⟩ hc
          · have := ih3 hspos
            have hle : s.2 ≤ x.2.conversion.bestTime := by
              by_contra hnot
              exact hc ⟨hxpos, Or.inr (by omega)⟩
            exact ⟨this.1, le_trans this.2 hle⟩
        · exact ih2 x hx hxpos

/-- Example record: converted in 30 seconds, below the one-minute floor. -/
def exSubMinApp : AppIn :=
  { product := "p", type := "t", status := "Done", executor := "A",
    completedAt := some (30 * 1000000000), createdAt := 0 }

/-- C2 counterexample: one performer whose only converted record took 30
seconds has best time 0 (the one-minute floor discards it); the performer
grouping is non-empty, yet the best-time performer result is a zero
duration with an empty display name, not the not-applicable sentinel the
claim promises. -/
theorem C2_counterexample :
    (newOverview 0 [exSubMinApp]).activeExecutor = 1 ∧
      (newOverview 0 [exSubMinApp]).bestTimeUsed.bestTime = 0 ∧
      (newOverview 0 [exSubMinApp]).bestTimeUsed.displayName ≠ "N/A" := by
  decide

/-- C2 (amended): a performer's best time is the minimum elapsed time over
their converted records that is at least the one-minute floor, and 0 when
no elapsed time qualifies; the best-time performer has the smallest
positive per-performer best time, and its name is one of the performers
attaining it. The not-applicable sentinel is returned only when the
performer map is empty: on a non-empty map in which no performer has a
positive best time the result is a zero duration with an empty name. -/
theorem C2_best_time (now : Int) (apps : List AppIn)
    (ps : List (String × performerMetric)) :
    ((((apps.filter fun a => decide (isConvertedApp a)).map elapsedOf).filter
          (fun d => decide (nsMinute ≤ d)) = [] →
        (newConversion now apps).bestTime = 0) ∧
      (((apps.filter fun a => decide (isConvertedApp a)).map elapsedOf).filter
          (fun d => decide (nsMinute ≤ d)) ≠ [] →
        (newConversion now apps).bestTime ∈
            ((apps.filter fun a => decide (isConvertedApp a)).map
              elapsedOf).filter (fun d => decide (nsMinute ≤ d)) ∧
          ∀ d ∈ ((apps.filter fun a => decide (isConvertedApp a)).map
              elapsedOf).filter (fun d => decide (nsMinute ≤ d)),
            (newConversion now apps).bestTime ≤ d)) ∧
      (ps = [] → findBestTimeUsedByExecutor ps =
        { displayName := "N/A", bestTime := 0 }) ∧
      (ps ≠ [] → (∀ em ∈ ps, em.2.conversion.bestTime ≤ 0) →
        findBestTimeUsedByExecutor ps = { displayName := "", bestTime := 0 }) ∧
      (∀ em ∈ ps, 0 < em.2.conversion.bestTime →
        0 < (findBestTimeUsedByExecutor ps).bestTime ∧
          (findBestTimeUsedByExecutor ps).bestTime ≤
            em.2.conversion.bestTime) ∧
      (0 < (findBestTimeUsedByExecutor ps).bestTime →
        ∃ em ∈ ps, em.1 = (findBestTimeUsedByExecutor ps).displayName ∧
          em.2.conversion.bestTime = (findBestTimeUsedByExecutor ps).bestTime) := by
  refine ⟨?_, ?_, ?_, ?_, ?_⟩
  · rw [newConversion_bestTime]
    exact bestFold_char _
  · intro h
    simp [findBestTimeUsedByExecutor, h]
  · intro hne hall
    unfold findBestTimeUsedByExecutor
    rw [if_neg hne, btStep_fold_keep ps ("", 0) fun x hx => hall x hx]
  · intro em hem hpos
    have hne : ps ≠ [] := by
      rintro rfl
      exact absurd hem (by simp)
    have h := (btStep_fold_char ps ("", 0) (Or.inl rfl)).2.1 em hem hpos
    unfold findBestTimeUsedByExecutor
    rw [if_neg hne]
    exact h
  · intro hpos
    by_cases hne : ps = []
    · rw [hne] at hpos ⊢
      simp [findBestTimeUsedByExecutor] at hpos
    · unfold findBestTimeUsedByExecutor at hpos ⊢
      rw [if_neg hne] at hpos ⊢
      have h := (btStep_fold_char ps ("", 0) (Or.inl rfl)).1
      rcases h with h | ⟨em, hem, h1, h2, h3⟩
      · simp only [h] at hpos
        exact absurd hpos (by norm_num)
      · exact ⟨em, hem, h1, h2⟩

/-- C2 witness: on empty inputs the best-time fold reports 0 and the
best-time performer is the not-applicable sentinel, discharging the
emptiness hypotheses of the amended claim at a concrete input. -/
theorem C2_witness :
    findBestTimeUsedByExecutor [] = { displayName := "N/A", bestTime := 0 } ∧
      (newConversion 0 []).bestTime = 0 :=
  ⟨(C2_best_time 0 [] []).2.1 rfl, (C2_best_time 0 [] []).1.1 (by decide)⟩

/-! ## Comparator lemmas -/

theorem lexLess_asymm {p q : Int × ℚ × Int} (h1 : lexLess p q)
    (h2 : lexLess q p) : False := by
  unfold lexLess at h1 h2
  rcases h1 with h1 | ⟨e1, h1⟩ | ⟨e1, e2, h1⟩ <;>
    rcases h2 with h2 | ⟨f1, h2⟩ | ⟨f1, f2, h2⟩ <;>
      first | omega | linarith

theorem lexLess_irrefl (p : Int × ℚ × Int) : ¬ lexLess p p := fun h =>
  lexLess_asymm h h

theorem lexLess_trichot (p q : Int × ℚ × Int) :
    lexLess p q ∨ lexLess q p ∨ p = q := by
  unfold lexLess
  rcases lt_trichotomy p.1 q.1 with h1 | h1 | h1
  · exact Or.inr (Or.inl (Or.inl h1))
  · rcases lt_trichotomy p.2.1 q.2.1 with h2 | h2 | h2
    · exact Or.inr (Or.inl (Or.inr (Or.inl ⟨h1.symm, h2⟩)))
    · rcases lt_trichotomy p.2.2 q.2.2 with h3 | h3 | h3
      · exact Or.inl (Or.inr (Or.inr ⟨h1, h2, h3⟩))
      · exact Or.inr (Or.inr (Prod.ext_iff.mpr
          ⟨h1, Prod.ext_iff.mpr ⟨h2, h3⟩⟩))
      · exact Or.inr (Or.inl (Or.inr (Or.inr ⟨h1.symm, h2.symm, h3⟩)))
    · exact Or.inl (Or.inr (Or.inl ⟨h1, h2⟩))
  · exact Or.inl (Or.inl h1)

theorem lexLess_trans {p q r : Int × ℚ × Int} (h1 : lexLess p q)
    (h2 : lexLess q r) : lexLess p r := by
  unfold lexLess at h1 h2 ⊢
  rcases h1 with h1 | ⟨e1, h1⟩ | ⟨e1, e2, h1⟩ <;>
    rcases h2 with h2 | ⟨f1, h2⟩ | ⟨f1, f2, h2⟩
  · exact Or.inl (by omega)
  · exact Or.inl (by omega)
  · exact Or.inl (by omega)
  · exact Or.inl (by omega)
  · exact Or.inr (Or.inl ⟨by omega, by linarith⟩)
  · exact Or.inr (Or.inl ⟨by omega, by linarith⟩)
  · exact Or.inl (by omega)
  · exact Or.inr (Or.inl ⟨by omega, by linarith⟩)
  · exact Or.inr (Or.inr ⟨by omega, by linarith, by omega⟩)

instance : IsTotal performerMetric perfLe :=
  ⟨fun x y => by
    unfold perfLe
    rcases lexLess_trichot (perfKey x) (perfKey y) with h | h | h
    · exact Or.inl fun h2 => lexLess_asymm h h2
    · exact Or.inr fun h2 => lexLess_asymm h h2
    · exact Or.inl fun h2 => lexLess_irrefl _ (h ▸ h2)⟩

instance : IsTrans performerMetric perfLe :=
  ⟨fun x y z h1 h2 => by
    unfold perfLe at h1 h2 ⊢
    intro hzx
    rcases lexLess_trichot (perfKey y) (perfKey x) with h | h | h
    · exact h1 h
    · exact h2 (lexLess_trans hzx h)
    · exact h2 (h ▸ hzx)⟩

/-! ## Leaderboard construction lemmas -/

theorem rankFrom_length (i : Int) (ps : List performerMetric) :
    (rankFrom i ps).length = ps.length := by
  induction ps generalizing i with
  | nil => rfl
  | cons p t ih => simp [rankFrom, ih]

theorem rankFrom_rank_get (i : Int) (ps : List performerMetric) (k : Nat)
    (h : k < (rankFrom i ps).length) :
    ((rankFrom i ps).get ⟨k, h⟩).rank = i + k + 1 := by
  induction ps generalizing i k with
  | nil => simp [rankFrom] at h
  | cons p t ih =>
    cases k with
    | zero => simp [rankFrom, mkLeaderboardEntry]
    | succ k =>
      have h' : k < (rankFrom (i + 1) t).length := by
        simpa [rankFrom] using h
      have := ih (i + 1) k h'
      simp only [rankFrom, List.get_cons_succ]
      rw [this]
      push_cast
      ring

theorem mem_rankFrom {x : Leaderboard} (i : Int) (ps : List performerMetric)
    (hx : x ∈ rankFrom i ps) : ∃ p ∈ ps, ∃ j, x = mkLeaderboardEntry j p := by
  induction ps generalizing i with
  | nil => simp [rankFrom] at hx
  | cons p t ih =>
    simp only [rankFrom, List.mem_cons] at hx
    rcases hx with rfl | hx
    · exact ⟨p, by simp, i + 1, rfl⟩
    · obtain ⟨q, hq, j, rfl⟩ := ih (i + 1) hx
      exact ⟨q, by simp [hq], j, rfl⟩

theorem rankFrom_pairwise {R : performerMetric → performerMetric → Prop}
    {S : Leaderboard → Leaderboard → Prop}
    (hRS : ∀ (i j : Int) (p q : performerMetric), R p q →
      S (mkLeaderboardEntry i p) (mkLeaderboardEntry j q))
    (i : Int) (ps : List performerMetric) (h : ps.Pairwise R) :
    (rankFrom i ps).Pairwise S := by
  induction ps generalizing i with
  | nil => constructor
  | cons p t ih =>
    rw [List.pairwise_cons] at h
    constructor
    · intro x hx
      obtain ⟨q, hq, j, rfl⟩ := mem_rankFrom (i + 1) t hx
      exact hRS _ _ _ _ (h.1 q hq)
    · exact ih (i + 1) h.2

/-- The key of a leaderboard entry, for stating sortedness of the output. -/
def lbKey (x : Leaderboard) : Int × ℚ × Int :=
  (x.converted, x.conversionRate, x.averageTime)

/-- C4: the leaderboard is sorted by the comparator (converted count
descending, then conversion rate descending, then average time ascending),
has length min 5 (number of performers), its ranks are exactly 1..length
in order, and an empty mapping yields an empty list. -/
theorem C4_leaderboard (conversions : List (String × performerMetric)) :
    (createLeaderboards conversions).length = min 5 conversions.length ∧
      (∀ k (h : k < (createLeaderboards conversions).length),
        ((createLeaderboards conversions).get ⟨k, h⟩).rank = (k : Int) + 1) ∧
      (createLeaderboards conversions).Pairwise
        (fun x y => ¬ lexLess (lbKey y) (lbKey x)) ∧
      (conversions = [] → createLeaderboards conversions = []) := by
  refine ⟨?_, ?_, ?_, ?_⟩
  · rw [createLeaderboards, sortPerformers, rankFrom_length, List.length_take,
      List.length_insertionSort, List.length_map]
  · intro k h
    show ((rankFrom 0 ((sortPerformers (conversions.map Prod.snd)).take 5)).get
        ⟨k, h⟩).rank = (k : Int) + 1
    rw [rankFrom_rank_get]
    ring
  · rw [createLeaderboards]
    apply rankFrom_pairwise
      (R := fun p q => ¬ lexLess (perfKey q) (perfKey p))
    · intro i j p q h
      simpa [mkLeaderboardEntry, lbKey, perfKey] using h
    · exact List.Pairwise.sublist (List.take_sublist 5 _)
        (List.sorted_insertionSort perfLe (conversions.map Prod.snd))
  · rintro rfl
    rfl

/-- C4 witness: an empty mapping yields an empty leaderboard, discharging
the emptiness hypothesis of the claim at a concrete input. -/
theorem C4_witness : createLeaderboards [] = [] :=
  (C4_leaderboard []).2.2.2 rfl

/-! ## Determinism of the leaderboard under map iteration order -/

theorem sorted_perm_eq_of_keys_nodup (l1 : List performerMetric) :
    ∀ l2, l1.Perm l2 → l1.Pairwise perfLe → l2.Pairwise perfLe →
      l1.Pairwise (fun x y => perfKey x ≠ perfKey y) → l1 = l2 := by
  induction l1 with
  | nil =>
    intro l2 hp _ _ _
    exact hp.nil_eq
  | cons a t1 ih =>
    intro l2 hp hs1 hs2 hnd
    cases l2 with
    | nil => exact absurd hp (by simp)
    | cons b t2 =>
      have hab : a = b := by
        by_contra hab
        have hain : a ∈ b :: t2 := hp.mem_iff.mp (by simp)
        have hbin : b ∈ a :: t1 := hp.symm.mem_iff.mp (by simp)
        have hat2 : a ∈ t2 := by
          rcases List.mem_cons.mp hain with h | h
          · exact absurd h hab
          · exact h
        have hbt1 : b ∈ t1 := by
          rcases List.mem_cons.mp hbin with h | h
          · exact absurd h.symm hab
          · exact h
        rw [List.pairwise_cons] at hs1 hs2 hnd
        have h1 := hs1.1 b hbt1
        have h2 := hs2.1 a hat2
        have hkey := hnd.1 b hbt1
        unfold perfLe at h1 h2
        rcases lexLess_trichot (perfKey a) (perfKey b) with h | h | h
        · exact h2 h
        · exact h1 h
        · exact hkey h
      subst hab
      rw [List.pairwise_cons] at hs1 hs2 hnd
      rw [ih t2 hp.cons_inv hs1.2 hs2.2 hnd.2]

/-- Conversion record producing a full tie on all three comparator keys. -/
def tieConv : Conversion :=
  { total := 1, converted := 1, notPassed := 0, rate := 100, fastest := 1,
    fastestPercent := 100, needAttention := 0, bestTime := 10 * nsMinute,
    averageTime := 10 * nsMinute }

/-- Performer metric named A with the tied conversion record. -/
def perfA : performerMetric :=
  { displayName := "A", conversion := tieConv, performances := [] }

/-- Performer metric named B with the same conversion record as A. -/
def perfB : performerMetric :=
  { displayName := "B", conversion := tieConv, performances := [] }

/-- Performer metric named C that strictly beats A on converted count. -/
def perfC : performerMetric :=
  { displayName := "C", conversion := { tieConv with converted := 2 },
    performances := [] }

/-- C3 counterexample: two performers tied on converted count, conversion
rate and average time. The same performer map presented in its two
possible iteration orders yields two different leaderboards, so the
leaderboard order is not a deterministic function of the input: it depends
on the iteration order of the Go map, which is unspecified and varies
between invocations. -/
theorem C3_counterexample :
    (([("A", perfA), ("B", perfB)] : List (String × performerMetric)).Perm
        [("B", perfB), ("A", perfA)]) ∧
      createLeaderboards [("A", perfA), ("B", perfB)] ≠
        createLeaderboards [("B", perfB), ("A", perfA)] := by
  constructor
  · exact List.Perm.swap ("B", perfB) ("A", perfA) []
  · decide

/-- C3 (amended): the leaderboard is invariant under the iteration order of
the performer map whenever no two performers tie simultaneously on
converted count, conversion rate and average time; with such a full tie the
relative order of the tied entries follows the unspecified map iteration
order, so two invocations may differ (see the counterexample). -/
theorem C3_leaderboard_determinism (ps qs : List (String × performerMetric))
    (hperm : ps.Perm qs)
    (hnd : (ps.map fun e => perfKey e.2).Nodup) :
    createLeaderboards ps = createLeaderboards qs := by
  have hkey : (sortPerformers (ps.map Prod.snd)).Pairwise
      (fun x y => perfKey x ≠ perfKey y) := by
    have h1 : ((ps.map Prod.snd).map perfKey).Nodup := by
      simpa [List.map_map, Function.comp_def] using hnd
    have h2 : ((sortPerformers (ps.map Prod.snd)).map perfKey).Nodup :=
      (List.Perm.nodup_iff
        ((List.perm_insertionSort perfLe (ps.map Prod.snd)).map perfKey)).mpr h1
    rw [List.Nodup, List.pairwise_map] at h2
    exact h2
  have hsortEq : sortPerformers (ps.map Prod.snd) =
      sortPerformers (qs.map Prod.snd) := by
    apply sorted_perm_eq_of_keys_nodup
    · exact ((List.perm_insertionSort perfLe (ps.map Prod.snd)).trans
        (hperm.map Prod.snd)).trans
        (List.perm_insertionSort perfLe (qs.map Prod.snd)).symm
    · exact List.sorted_insertionSort perfLe (ps.map Prod.snd)
    · exact List.sorted_insertionSort perfLe (qs.map Prod.snd)
    · exact hkey
  unfold createLeaderboards
  rw [hsortEq]

/-- C3 witness: with two performers that differ on converted count the two
iteration orders of the map produce the same leaderboard, discharging the
permutation and no-tie hypotheses of the amended claim at a concrete
input. -/
theorem C3_witness :
    createLeaderboards [("A", perfA), ("C", perfC)] =
      createLeaderboards [("C", perfC), ("A", perfA)] :=
  C3_leaderboard_determinism _ _ (List.Perm.swap ("C", perfC) ("A", perfA) [])
    (by decide)

/-! ## Grouping lemmas -/

theorem insertGroup_forall {α : Type} {P : String × List α → Prop}
    {k : String} {a : α} (gs : List (String × List α))
    (hgs : ∀ g ∈ gs, P g) (hnew : P (k, [a]))
    (hext : ∀ l, P (k, l) → P (k, l ++ [a])) :
    ∀ g ∈ insertGroup k a gs, P g := by
  induction gs with
  | nil => simpa [insertGroup] using hnew
  | cons g t ih =>
    obtain ⟨k', gl⟩ := g
    simp only [insertGroup]
    split_ifs with h
    · intro x hx
      rcases List.mem_cons.mp hx with rfl | hx
      · subst h
        exact hext gl (hgs (k', gl) (by simp))
      · exact hgs x (by simp [hx])
    · intro x hx
      rcases List.mem_cons.mp hx with rfl | hx
      · exact hgs (k', gl) (by simp)
      · exact ih (fun y hy => hgs y (by simp [hy])) x hx

theorem insertGroup_mem_self {α : Type} (k : String) (a : α)
    (gs : List (String × List α)) :
    ∃ g ∈ insertGroup k a gs, g.1 = k ∧ a ∈ g.2 := by
  induction gs with
  | nil => exact ⟨(k, [a]), by simp [insertGroup]⟩
  | cons g t ih =>
    obtain ⟨k', gl⟩ := g
    simp only [insertGroup]
    split_ifs with h
    · exact ⟨(k', gl ++ [a]), by simp, h, by simp⟩
    · obtain ⟨g', hg', h1, h2⟩ := ih
      exact ⟨g', by simp [hg'], h1, h2⟩

theorem insertGroup_mono {α : Type} {k0 : String} {x : α} (k : String) (a : α)
    (gs : List (String × List α)) (h : ∃ g ∈ gs, g.1 = k0 ∧ x ∈ g.2) :
    ∃ g ∈ insertGroup k a gs, g.1 = k0 ∧ x ∈ g.2 := by
  induction gs with
  | nil => simp at h
  | cons g t ih =>
    obtain ⟨k', gl⟩ := g
    obtain ⟨g', hg', h1, h2⟩ := h
    simp only [insertGroup]
    split_ifs with hk
    · rcases List.mem_cons.mp hg' with rfl | hg'
      · exact ⟨(k', gl ++ [a]), by simp, h1, by simp [h2]⟩
      · exact ⟨g', by simp [hg'], h1, h2⟩
    · rcases List.mem_cons.mp hg' with rfl | hg'
      · exact ⟨(k', gl), by simp, h1, h2⟩
      · obtain ⟨g'', hg'', h1', h2'⟩ := ih ⟨g', hg', h1, h2⟩
        exact ⟨g'', by simp [hg''], h1', h2'⟩

theorem groupExec_invariant (l : List AppIn) :
    ∀ gs, (∀ g ∈ gs, g.1 ≠ "" ∧ ∀ b ∈ g.2, b.executor = g.1) →
      ∀ g ∈ l.foldl
          (fun gs a => if a.executor = "" then gs
            else insertGroup a.executor a gs) gs,
        g.1 ≠ "" ∧ ∀ b ∈ g.2, b.executor = g.1 := by
  induction l with
  | nil => intro gs h; exact h
  | cons a t ih =>
    intro gs h
    simp only [List.foldl_cons]
    by_cases he : a.executor = ""
    · rw [if_pos he]
      exact ih gs h
    · rw [if_neg he]
      apply ih
      apply insertGroup_forall gs h
      · exact ⟨he, by simp⟩
      · intro gl hgl
        refine ⟨hgl.1, fun b hb => ?_⟩
        rcases List.mem_append.mp hb with hb | hb
        · exact hgl.2 b hb
        · simp only [List.mem_singleton] at hb
          subst hb
          rfl

theorem groupAppInByExecutor_sound (l : List AppIn) :
    ∀ g ∈ groupAppInByExecutor l, g.1 ≠ "" ∧ ∀ b ∈ g.2, b.executor = g.1 :=
  groupExec_invariant l [] (by simp)

theorem groupProd_invariant (l : List AppIn) :
    ∀ gs, (∀ g ∈ gs, ∀ b ∈ g.2, b.type ≠ "" ∧ g.1 = productKey b) →
      ∀ g ∈ l.foldl
          (fun gs a => if a.type = "" then gs
            else insertGroup (productKey a) a gs) gs,
        ∀ b ∈ g.2, b.type ≠ "" ∧ g.1 = productKey b := by
  induction l with
  | nil => intro gs h; exact h
  | cons a t ih =>
    intro gs h
    simp only [List.foldl_cons]
    by_cases ht : a.type = ""
    · rw [if_pos ht]
      exact ih gs h
    · rw [if_neg ht]
      apply ih
      apply insertGroup_forall gs h
      · intro b hb
        simp only [List.mem_singleton] at hb
        subst hb
        exact ⟨ht, rfl⟩
      · intro gl hgl b hb
        rcases List.mem_append.mp hb with hb | hb
        · exact hgl b hb
        · simp only [List.mem_singleton] at hb
          subst hb
          exact ⟨ht, rfl⟩

theorem groupAppInByProduct_sound (l : List AppIn) :
    ∀ g ∈ groupAppInByProduct l, ∀ b ∈ g.2, b.type ≠ "" ∧ g.1 = productKey b :=
  groupProd_invariant l [] (by simp)

theorem groupProd_fold_mem (l : List AppIn) :
    ∀ gs (a : AppIn),
      ((∃ g ∈ gs, g.1 = productKey a ∧ a ∈ g.2) ∨ (a ∈ l ∧ a.type ≠ "")) →
      ∃ g ∈ l.foldl
          (fun gs a => if a.type = "" then gs
            else insertGroup (productKey a) a gs) gs,
        g.1 = productKey a ∧ a ∈ g.2 := by
  induction l with
  | nil =>
    intro gs a h
    rcases h with h | ⟨h, -⟩
    · exact h
    · simp at h
  | cons b t ih =>
    intro gs a h
    simp only [List.foldl_cons]
    rcases h with hmem | ⟨hal, hat⟩
    · apply ih
      left
      by_cases hb : b.type = ""
      · rw [if_pos hb]
        exact hmem
      · rw [if_neg hb]
        exact insertGroup_mono (productKey b) b gs hmem
    · rcases List.mem_cons.mp hal with rfl | hal
      · apply ih
        left
        rw [if_neg hat]
        exact insertGroup_mem_self (productKey a) a gs
      · exact ih _ a (Or.inr ⟨hal, hat⟩)

theorem groupAppInByProduct_mem (l : List AppIn) (a : AppIn) (ha : a ∈ l)
    (ht : a.type ≠ "") :
    ∃ g ∈ groupAppInByProduct l, g.1 = productKey a ∧ a ∈ g.2 :=
  groupProd_fold_mem l [] a (Or.inr ⟨ha, ht⟩)

theorem perfMetric_mem_name (now : Int) (groups : List (String × List AppIn))
    (p : performerMetric)
    (hp : p ∈ (calculatePerformanceConversionMetricsByExecutor now groups).map
      Prod.snd) :
    ∃ g ∈ groups, p.displayName = g.1 := by
  simp only [calculatePerformanceConversionMetricsByExecutor, List.map_map,
    Function.comp_def, List.mem_map] at hp
  obtain ⟨g, hg, rfl⟩ := hp
  exact ⟨g, hg, rfl⟩

theorem perfMetric_keys (now : Int) (groups : List (String × List AppIn)) :
    ∀ em ∈ calculatePerformanceConversionMetricsByExecutor now groups,
      ∃ g ∈ groups, em.1 = g.1 := by
  intro em hem
  simp only [calculatePerformanceConversionMetricsByExecutor,
    List.mem_map] at hem
  obtain ⟨g, hg, rfl⟩ := hem
  exact ⟨g, hg, rfl⟩

theorem topFold_name (ps : List (String × performerMetric))
    (t0 : TopPerformer) :
    (ps.foldl topStep t0).displayName = t0.displayName ∨
      ∃ em ∈ ps, em.1 = (ps.foldl topStep t0).displayName := by
  induction ps generalizing t0 with
  | nil => exact Or.inl rfl
  | cons em t ih =>
    simp only [List.foldl_cons]
    rcases ih (topStep t0 em) with h | ⟨x, hx, h⟩
    · by_cases hc : em.2.conversion.converted > t0.converted ∨
          (em.2.conversion.converted = t0.converted ∧
            em.2.conversion.rate > t0.conversionRate)
      · have hd : (topStep t0 em).displayName = em.1 := by
          unfold topStep
          rw [if_pos hc]
        exact Or.inr ⟨em, by simp, (h.trans hd).symm⟩
      · have hd : topStep t0 em = t0 := by
          unfold topStep
          rw [if_neg hc]
        exact Or.inl (h.trans (congrArg TopPerformer.displayName hd))
    · exact Or.inr ⟨x, by simp [hx], h⟩

/-- C8: a record with an empty performer field is excluded from every
performer-based aggregation: it is in no performer group, every leaderboard
entry carries a non-empty performer name, a non-default top performer and a
non-default best-time performer name is always a performer-group key, while
the record still counts toward the overall conversion total. -/
theorem C8_empty_executor_excluded (now : Int) (l : List AppIn) :
    (newOverview now l).conversion.total = (l.length : Int) ∧
      (∀ g ∈ groupAppInByExecutor l, g.1 ≠ "" ∧ ∀ b ∈ g.2, b.executor = g.1) ∧
      (∀ a ∈ l, a.executor = "" → ∀ g ∈ groupAppInByExecutor l, a ∉ g.2) ∧
      (∀ e ∈ (newOverview now l).leaderboards, e.displayName ≠ "") ∧
      ((newOverview now l).topPerformer.displayName ≠ "" →
        ∃ g ∈ groupAppInByExecutor l,
          g.1 = (newOverview now l).topPerformer.displayName) ∧
      ((newOverview now l).bestTimeUsed.displayName ≠ "" →
        (newOverview now l).bestTimeUsed.displayName ≠ "N/A" →
        ∃ g ∈ groupAppInByExecutor l,
          g.1 = (newOverview now l).bestTimeUsed.displayName) := by
  have hsound := groupAppInByExecutor_sound l
  refine ⟨?_, hsound, ?_, ?_, ?_, ?_⟩
  · show (newConversion now l).total = _
    exact newConversion_total now l
  · intro a _ hae g hg hmem
    exact (hsound g hg).1 (((hsound g hg).2 a hmem).symm.trans hae)
  · intro e he
    have he' : e ∈ createLeaderboards
        (calculatePerformanceConversionMetricsByExecutor now
          (groupAppInByExecutor l)) := he
    rw [createLeaderboards] at he'
    obtain ⟨p, hp, j, rfl⟩ := mem_rankFrom _ _ he'
    have hp2 : p ∈ sortPerformers
        ((calculatePerformanceConversionMetricsByExecutor now
          (groupAppInByExecutor l)).map Prod.snd) := List.mem_of_mem_take hp
    rw [sortPerformers, List.mem_insertionSort] at hp2
    obtain ⟨g, hg, hname⟩ := perfMetric_mem_name now _ p hp2
    show p.displayName ≠ ""
    rw [hname]
    exact (hsound g hg).1
  · intro hne
    rcases topFold_name (calculatePerformanceConversionMetricsByExecutor now
        (groupAppInByExecutor l))
        { displayName := "", converted := 0, conversionRate := 0 } with
      h | ⟨em, hem, h⟩
    · exact absurd h hne
    · obtain ⟨g, hg, hkey⟩ := perfMetric_keys now _ em hem
      exact ⟨g, hg, hkey.symm.trans h⟩
  · intro hne hna
    by_cases hnil : calculatePerformanceConversionMetricsByExecutor now
        (groupAppInByExecutor l) = []
    · exact absurd (show (newOverview now l).bestTimeUsed.displayName = "N/A"
        by simp [newOverview, findBestTimeUsedByExecutor, hnil]) hna
    · have h := (btStep_fold_char
        (calculatePerformanceConversionMetricsByExecutor now
          (groupAppInByExecutor l)) ("", 0) (Or.inl rfl)).1
      rcases h with h | ⟨em, hem, h1, h2, h3⟩
      · exact absurd (show (newOverview now l).bestTimeUsed.displayName = ""
          by simp [newOverview, findBestTimeUsedByExecutor, hnil, h]) hne
      · obtain ⟨g, hg, hkey⟩ := perfMetric_keys now _ em hem
        refine ⟨g, hg, ?_⟩
        show g.1 = (findBestTimeUsedByExecutor
          (calculatePerformanceConversionMetricsByExecutor now
            (groupAppInByExecutor l))).displayName
        rw [findBestTimeUsedByExecutor, if_neg hnil]
        exact hkey.symm.trans h1

/-- Example record with an empty performer field. -/
def exNoExecApp : AppIn :=
  { product := "p", type := "t", status := "Done", executor := "",
    completedAt := some (10 * nsMinute), createdAt := 0 }

/-- C8 witness: a single record with an empty performer is in no performer
group yet counts toward the overall total, discharging the empty-performer
hypotheses of the claim at a concrete input. -/
theorem C8_witness :
    (newOverview 0 [exNoExecApp]).conversion.total = 1 ∧
      (∀ g ∈ groupAppInByExecutor [exNoExecApp], exNoExecApp ∉ g.2) :=
  ⟨(C8_empty_executor_excluded 0 [exNoExecApp]).1,
    fun g hg =>
      (C8_empty_executor_excluded 0 [exNoExecApp]).2.2.1 exNoExecApp
        (by decide) (by decide) g hg⟩

/-- C9: grouping by product skips records with an empty type; every grouped
record sits in the group keyed by its product key, and the product key is
the raw product label except that a product equal to "sale auto"
case-insensitively is rewritten, by case-insensitive substring match on the
type field tried in the order c4c, used car, mc, to the canonical prefixes
"C4C | ", "Used Car | ", "MC | " followed by the raw product label, falling
back to the raw product label when no alias matches. -/
theorem C9_product_grouping (l : List AppIn) :
    (∀ g ∈ groupAppInByProduct l, ∀ a ∈ g.2,
        a.type ≠ "" ∧ g.1 = productKey a) ∧
      (∀ a ∈ l, a.type ≠ "" →
        ∃ g ∈ groupAppInByProduct l, g.1 = productKey a ∧ a ∈ g.2) ∧
      (∀ a : AppIn, productKey a =
        if goToLower a.product = "sale auto" then
          if goContains (goToLower a.type) "c4c" = true then
            "C4C | " ++ a.product
          else if goContains (goToLower a.type) "used car" = true then
            "Used Car | " ++ a.product
          else if goContains (goToLower a.type) "mc" = true then
            "MC | " ++ a.product
          else a.product
        else a.product) :=
  ⟨groupAppInByProduct_sound l,
    fun a ha ht => groupAppInByProduct_mem l a ha ht,
    fun _ => rfl⟩

/-- Example record with the aliased product and a c4c type. -/
def exSaleAutoApp : AppIn :=
  { product := "Sale Auto", type := "Some C4C customer", status := "",
    executor := "", completedAt := none, createdAt := 0 }

/-- C9 witness: an aliased sale-auto record with a c4c type lands in the
group keyed "C4C | Sale Auto", discharging the non-empty-type hypothesis of
the claim at a concrete input. -/
theorem C9_witness :
    ∃ g ∈ groupAppInByProduct [exSaleAutoApp],
      g.1 = productKey exSaleAutoApp ∧ exSaleAutoApp ∈ g.2 :=
  (C9_product_grouping [exSaleAutoApp]).2.1 exSaleAutoApp (by decide)
    (by decide)

/-- C7 counterexample: on empty input the engine's best-time performer
carries the "N/A" not-applicable sentinel, but the top performer does not:
it is the zero value with an empty display name, so the claim that both
signal "not applicable" fails for the top performer. -/
theorem C7_counterexample :
    (newOverview 0 []).bestTimeUsed.displayName = "N/A" ∧
      (newOverview 0 []).topPerformer.displayName ≠ "N/A" := by
  decide

/-- C7 (amended): on empty input the engine produces a complete Overview
without faulting: active-performer count 0, a conversion summary with every
count, rate and duration 0, both histograms present with every fixed bucket
at zero count, an empty leaderboard, an empty product-metric list, the
best-time performer equal to the "N/A" sentinel with zero duration, and the
top performer equal to the zero value with an empty display name. -/
theorem C7_empty_input (now : Int) :
    newOverview now [] =
      { activeExecutor := 0
        topPerformer :=
          { displayName := "", converted := 0, conversionRate := 0 }
        conversion :=
          { total := 0, converted := 0, notPassed := 0, rate := 0,
            fastest := 0, fastestPercent := 0, needAttention := 0,
            bestTime := 0, averageTime := 0 }
        timeIntervalsByConverted :=
          bucketTitles.map fun t => { title := t, total := 0 }
        timeIntervalsByPending :=
          bucketTitles.map fun t => { title := t, total := 0 }
        bestTimeUsed := { displayName := "N/A", bestTime := 0 }
        leaderboards := []
        productMetrics := [] } := by
  rfl

end AppInPerf
